import Mathlib

/-!
Verification development for the message-book exporter
(`src/main.rs` and `src/render.rs`).

Rust strings are modelled as `List Char`; `Option` models Rust `Option`
(and collapses `Result<Option<_>>` where the code only distinguishes
`Ok(Some(v))` from every other outcome).  The network title fetch
(`fetch_title`) is modelled as an injected function
`List Char → Option (List Char)`, as the sanitizer's only effectful
dependency.
-/

/-- Whitespace test modelling the regex character class `\s`
(Unicode-aware in the `regex` crate). -/
def isWs (c : Char) : Bool :=
  c = ' ' || c = '\t' || c = '\n' || c = '\r' || c = '\x0b' || c = '\x0c' ||
  c = '\u0085' || c = '\u00a0' || c = '\u1680' ||
  ('\u2000' ≤ c && c ≤ '\u200a') || c = '\u2028' || c = '\u2029' ||
  c = '\u202f' || c = '\u205f' || c = '\u3000'

/-- `String::replace` with a single-character pattern: every occurrence of
the character `c` is replaced by the string `r`. -/
def replaceChar (c : Char) (r : List Char) : List Char → List Char
  | [] => []
  | x :: xs => if x = c then r ++ replaceChar c r xs else x :: replaceChar c r xs

/-- `str::contains` with a string pattern: substring test. -/
def containsSub (pat : List Char) : List Char → Bool
  | [] => pat.isEmpty
  | c :: cs => pat.isPrefixOf (c :: cs) || containsSub pat cs

/-- The `undesired_titles` exclusion list of `latex_escape`
(render.rs lines 32-42). -/
def undesiredTitles : List (List Char) :=
  [("Page Not Found").data,
   ("Access Denied").data,
   ("Access to this page has been denied").data,
   ("404").data,
   ("404 not found").data,
   ("Update Your Browser | Facebook").data,
   ("403 Forbidden").data,
   ("400 Bad Request").data,
   ("Blocked").data]

/-- Whether a fetched title contains any undesired marker
(render.rs lines 47-50). -/
def containsUndesired (title : List Char) : Bool :=
  undesiredTitles.any (fun u => containsSub u title)

/-- Title simplification: newlines and tabs become spaces
(render.rs line 52). -/
def simplifyTitle (t : List Char) : List Char :=
  replaceChar '\t' [' '] (replaceChar '\n' [' '] t)

/-- The title recorded in `url_to_title` for a URL: the fetch must return
`Ok(Some(title))` (network errors and missing title elements are `none`
here), the title must not contain an undesired marker, and it is
simplified (render.rs lines 44-56). -/
def effectiveTitle (fetch : List Char → Option (List Char)) (url : List Char) :
    Option (List Char) :=
  match fetch url with
  | some title => if containsUndesired title then none else some (simplifyTitle title)
  | none => none

/-- `url.split('/').nth(2).unwrap_or(url)`: the host part of a URL
(render.rs line 61). -/
def corePart (url : List Char) : List Char :=
  (url.splitOn '/').getD 2 url

/-- The inline annotation substituted for a URL occurrence
(render.rs lines 62-66). -/
def urlAnnot (url : List Char) (title : Option (List Char)) : List Char :=
  match title with
  | some t => ("(link: ").data ++ corePart url ++ (", ").data ++ t ++ (")").data
  | none => ("(link: ").data ++ corePart url ++ (")").data

/-- Leftmost match of the URL regex `https?://[^\s]+` at the start of `s`:
the matched URL together with the remainder of `s` after the match. -/
def matchUrlAt (s : List Char) : Option (List Char × List Char) :=
  if ("https://").data.isPrefixOf s then
    if (s.drop 8).takeWhile (fun c => !isWs c) = [] then none
    else some (("https://").data ++ (s.drop 8).takeWhile (fun c => !isWs c),
               (s.drop 8).dropWhile (fun c => !isWs c))
  else if ("http://").data.isPrefixOf s then
    if (s.drop 7).takeWhile (fun c => !isWs c) = [] then none
    else some (("http://").data ++ (s.drop 7).takeWhile (fun c => !isWs c),
               (s.drop 7).dropWhile (fun c => !isWs c))
  else none

theorem dropWhile_length_le (p : Char → Bool) :
    ∀ l : List Char, (l.dropWhile p).length ≤ l.length := by
  intro l
  induction l with
  | nil => simp
  | cons c cs ih =>
    rw [List.dropWhile_cons]
    split
    · exact Nat.le_trans ih (Nat.le_succ _)
    · exact Nat.le_refl _

theorem isPrefixOf_length_le :
    ∀ (l s : List Char), l.isPrefixOf s = true → l.length ≤ s.length := by
  intro l
  induction l with
  | nil => intro s _; simp
  | cons a as ih =>
    intro s h
    cases s with
    | nil => simp [List.isPrefixOf] at h
    | cons b bs =>
      simp only [List.isPrefixOf, Bool.and_eq_true] at h
      simpa using ih bs h.2

theorem matchUrlAt_some_lt (s : List Char) (up : List Char × List Char)
    (h : matchUrlAt s = some up) : up.2.length < s.length := by
  unfold matchUrlAt at h
  split at h
  · next hpre =>
    split at h
    · exact absurd h (by simp)
    · have h8 : 8 ≤ s.length := by
        have := isPrefixOf_length_le (("https://").data) s hpre
        simpa using this
      have hd : (s.drop 8).length = s.length - 8 := by simp
      have := dropWhile_length_le (fun c => !isWs c) (s.drop 8)
      cases h
      simp only []
      omega
  · split at h
    · next hpre =>
      split at h
      · exact absurd h (by simp)
      · have h7 : 7 ≤ s.length := by
          have := isPrefixOf_length_le (("http://").data) s hpre
          simpa using this
        have hd : (s.drop 7).length = s.length - 7 := by simp
        have := dropWhile_length_le (fun c => !isWs c) (s.drop 7)
        cases h
        simp only []
        omega
    · exact absurd h (by simp)

/-- `url_regex.replace_all` (render.rs lines 58-68): scan left to right,
replace each URL match by its annotation, and continue scanning after the
match.  `tmap` is the `url_to_title` lookup. -/
def replaceUrlsT (tmap : List Char → Option (List Char)) (s : List Char) : List Char :=
  match h : matchUrlAt s with
  | some up => urlAnnot up.1 (tmap up.1) ++ replaceUrlsT tmap up.2
  | none =>
    match s with
    | [] => []
    | c :: cs => c :: replaceUrlsT tmap cs
  termination_by s.length
  decreasing_by
  · exact matchUrlAt_some_lt s up h
  · simp

/-- No position of `s` starts a URL match. -/
def noUrl : List Char → Bool
  | [] => true
  | c :: cs => (matchUrlAt (c :: cs)).isNone && noUrl cs

/-- Smart-typography normalisation steps of `latex_escape`
(render.rs lines 72-75), in source order. -/
def normalizeSmart (s : List Char) : List Char :=
  replaceChar '…' (("...").data)
    (replaceChar '”' ['"']
      (replaceChar '“' ['"']
        (replaceChar '’' ['\''] s)))

/-- Escape steps of `latex_escape` (render.rs lines 76-87), in source
order, applied after smart-typography normalisation. -/
def escapeRest (s : List Char) : List Char :=
  replaceChar '\uFE0F' []
    (replaceChar '\n' (("\\newline\n").data)
      (replaceChar '\x7d' (("\\\x7d").data)
        (replaceChar '\x7b' (("\\\x7b").data)
          (replaceChar '#' (("\\#").data)
            (replaceChar '~' (("\\textasciitilde\\ ").data)
              (replaceChar '^' (("\\textasciicircum\\ ").data)
                (replaceChar '_' (("\\_").data)
                  (replaceChar '&' (("\\&").data)
                    (replaceChar '%' (("\\%").data)
                      (replaceChar '$' (("\\$").data)
                        (replaceChar '\\' (("\\textbackslash\\ ").data) s)))))))))))

/-- The Unicode `Extended_Pictographic` property used by the emoji regex
`\p{Extended_Pictographic}`: the complete table of ranges from the
Unicode Character Database (`emoji-data.txt`; these consolidated ranges,
which deliberately cover the reserved pictographic codepoints, are the
ones the `regex` crate matches). -/
def isExtPict (c : Char) : Bool :=
  let n := c.toNat
  n = 0xa9 || n = 0xae || n = 0x203c ||
  n = 0x2049 || n = 0x2122 || n = 0x2139 ||
  (0x2194 ≤ n && n ≤ 0x2199) || (0x21a9 ≤ n && n ≤ 0x21aa) || (0x231a ≤ n && n ≤ 0x231b) ||
  n = 0x2328 || n = 0x2388 || n = 0x23cf ||
  (0x23e9 ≤ n && n ≤ 0x23f3) || (0x23f8 ≤ n && n ≤ 0x23fa) || n = 0x24c2 ||
  (0x25aa ≤ n && n ≤ 0x25ab) || n = 0x25b6 || n = 0x25c0 ||
  (0x25fb ≤ n && n ≤ 0x25fe) || (0x2600 ≤ n && n ≤ 0x2605) || (0x2607 ≤ n && n ≤ 0x2612) ||
  (0x2614 ≤ n && n ≤ 0x2685) || (0x2690 ≤ n && n ≤ 0x2705) || (0x2708 ≤ n && n ≤ 0x2712) ||
  n = 0x2714 || n = 0x2716 || n = 0x271d ||
  n = 0x2721 || n = 0x2728 || (0x2733 ≤ n && n ≤ 0x2734) ||
  n = 0x2744 || n = 0x2747 || n = 0x274c ||
  n = 0x274e || (0x2753 ≤ n && n ≤ 0x2755) || n = 0x2757 ||
  (0x2763 ≤ n && n ≤ 0x2767) || (0x2795 ≤ n && n ≤ 0x2797) || n = 0x27a1 ||
  n = 0x27b0 || n = 0x27bf || (0x2934 ≤ n && n ≤ 0x2935) ||
  (0x2b05 ≤ n && n ≤ 0x2b07) || (0x2b1b ≤ n && n ≤ 0x2b1c) || n = 0x2b50 ||
  n = 0x2b55 || n = 0x3030 || n = 0x303d ||
  n = 0x3297 || n = 0x3299 || (0x1f000 ≤ n && n ≤ 0x1f0ff) ||
  (0x1f10d ≤ n && n ≤ 0x1f10f) || n = 0x1f12f || (0x1f16c ≤ n && n ≤ 0x1f171) ||
  (0x1f17e ≤ n && n ≤ 0x1f17f) || n = 0x1f18e || (0x1f191 ≤ n && n ≤ 0x1f19a) ||
  (0x1f1ad ≤ n && n ≤ 0x1f1e5) || (0x1f201 ≤ n && n ≤ 0x1f20f) || n = 0x1f21a ||
  n = 0x1f22f || (0x1f232 ≤ n && n ≤ 0x1f23a) || (0x1f23c ≤ n && n ≤ 0x1f23f) ||
  (0x1f249 ≤ n && n ≤ 0x1f3fa) || (0x1f400 ≤ n && n ≤ 0x1f53d) || (0x1f546 ≤ n && n ≤ 0x1f64f) ||
  (0x1f680 ≤ n && n ≤ 0x1f6ff) || (0x1f774 ≤ n && n ≤ 0x1f77f) || (0x1f7d5 ≤ n && n ≤ 0x1f7ff) ||
  (0x1f80c ≤ n && n ≤ 0x1f80f) || (0x1f848 ≤ n && n ≤ 0x1f84f) || (0x1f85a ≤ n && n ≤ 0x1f85f) ||
  (0x1f888 ≤ n && n ≤ 0x1f88f) || (0x1f8ae ≤ n && n ≤ 0x1f8ff) || (0x1f90c ≤ n && n ≤ 0x1f93a) ||
  (0x1f93c ≤ n && n ≤ 0x1f945) || (0x1f947 ≤ n && n ≤ 0x1faff) || (0x1fc00 ≤ n && n ≤ 0x1fffd)

mutual

/-- `emoji_regex.replace_all(&escaped, "{\\emojifont $1}")`
(render.rs lines 90-94): each maximal run of extended-pictographic
characters is wrapped in an `\emojifont` group. -/
def emojiWrap : List Char → List Char
  | [] => []
  | c :: cs =>
    if isExtPict c then '\x7b' :: ("\\emojifont ").data ++ c :: emojiRun cs
    else c :: emojiWrap cs

/-- Continuation of `emojiWrap` inside a pictographic run. -/
def emojiRun : List Char → List Char
  | [] => ['\x7d']
  | c :: cs =>
    if isExtPict c then c :: emojiRun cs
    else '\x7d' :: c :: emojiWrap cs

end

/-- `latex_escape` from render.rs, with the network title fetch injected
as `fetch`: URL annotation, smart-typography normalisation, control
character escaping, variation-selector stripping, emoji wrapping. -/
def latex_escape (fetch : List Char → Option (List Char)) (text : List Char) : List Char :=
  emojiWrap (escapeRest (normalizeSmart (replaceUrlsT (effectiveTitle fetch) text)))

/-- Localised message date, as produced by `msg.date(&get_offset())` (an
external chrono `DateTime<Local>`): calendar fields plus a sub-day
ordinal `tod` that orders messages within one day.  The store timestamp
order coincides with the lexicographic order on these fields, since the
library conversion from timestamps to local datetimes is monotone. -/
structure MsgDate where
  year : Nat
  month : Nat
  day : Nat
  tod : Nat
deriving DecidableEq

/-- Chronological order on localised dates (lexicographic). -/
def dLe (a b : MsgDate) : Prop :=
  a.year < b.year ∨ (a.year = b.year ∧
    (a.month < b.month ∨ (a.month = b.month ∧
      (a.day < b.day ∨ (a.day = b.day ∧ a.tod ≤ b.tod)))))

instance (a b : MsgDate) : Decidable (dLe a b) :=
  inferInstanceAs (Decidable (a.year < b.year ∨ (a.year = b.year ∧
    (a.month < b.month ∨ (a.month = b.month ∧
      (a.day < b.day ∨ (a.day = b.day ∧ a.tod ≤ b.tod)))))))

/-- Strict lexicographic order on (year, month) keys. -/
def ymLt (a b : Nat × Nat) : Prop :=
  a.1 < b.1 ∨ (a.1 = b.1 ∧ a.2 < b.2)

/-- Lexicographic order on (year, month) keys. -/
def ymLe (a b : Nat × Nat) : Prop :=
  a.1 < b.1 ∨ (a.1 = b.1 ∧ a.2 ≤ b.2)

instance : IsTrans (Nat × Nat) ymLt := by
  constructor; intro a b c hab hbc; unfold ymLt at *; omega

/-- Decimal digit character. -/
def digitChar (n : Nat) : Char := Char.ofNat (48 + n)

/-- chrono `%Y`: the year zero-padded to four digits (faithful for the
calendar years the store produces, all below 10000). -/
def pad4 (y : Nat) : List Char :=
  [digitChar (y / 1000 % 10), digitChar (y / 100 % 10),
   digitChar (y / 10 % 10), digitChar (y % 10)]

/-- chrono `%m`: the month zero-padded to two digits. -/
def pad2 (m : Nat) : List Char :=
  [digitChar (m / 10 % 10), digitChar (m % 10)]

/-- chrono `%e`: the day of month, space-padded to two characters. -/
def dayPad (d : Nat) : List Char :=
  if d < 10 then [' ', digitChar (d % 10)] else pad2 d

/-- chrono `%B`: the full month name. -/
def monthName (m : Nat) : List Char :=
  match m with
  | 1 => ("January").data
  | 2 => ("February").data
  | 3 => ("March").data
  | 4 => ("April").data
  | 5 => ("May").data
  | 6 => ("June").data
  | 7 => ("July").data
  | 8 => ("August").data
  | 9 => ("September").data
  | 10 => ("October").data
  | 11 => ("November").data
  | 12 => ("December").data
  | _ => []

/-- The chapter key string for a (year, month) pair, i.e. the result of
formatting `ch-%Y-%m`. -/
def chNameYM (ym : Nat × Nat) : List Char :=
  'c' :: 'h' :: '-' :: (pad4 ym.1 ++ '-' :: pad2 ym.2)

/-- `msg_date.format("ch-%Y-%m")` (main.rs line 245): the chapter name of
a message date, a function of its local year and month only. -/
def chapterName (d : MsgDate) : List Char :=
  chNameYM (d.year, d.month)

/-- Decimal rendering of a `Nat` (`format!("{}", n)`), with a structural
fuel argument; `fuel = n` always suffices since the digit count of `n`
never exceeds `n`. -/
def natDigitsF : Nat → Nat → List Char
  | 0, n => [digitChar (n % 10)]
  | fuel + 1, n => if n < 10 then [digitChar n] else natDigitsF fuel (n / 10) ++ [digitChar (n % 10)]

/-- Decimal rendering of a `Nat`. -/
def natDigits (n : Nat) : List Char := natDigitsF n n

/-- `format!("\\markright{{{}}}\n", date_str)` with
`date_str = self.date.format("%B %e, %Y")` (render.rs lines 128-129). -/
def dateMark (d : MsgDate) : List Char :=
  ("\\markright\x7b").data ++ monthName d.month ++ [' '] ++ dayPad d.day ++
    (", ").data ++ pad4 d.year ++ ("\x7d\n").data

/-- The chapter heading `\chapter{%B %Y}` written when a chapter file is
created (main.rs lines 263-266). -/
def chapterHeader (d : MsgDate) : List Char :=
  ("\\chapter\x7b").data ++ monthName d.month ++ [' '] ++ pad4 d.year ++
    ("\x7d\n\n").data

/-- `BubbleType` segments returned by `msg.body()`; every variant other
than text and attachment is matched by `_` in the source and collapsed
into `other` here. -/
inductive Bubble where
  | text (t : List Char)
  | attachment
  | other
deriving DecidableEq

/-- The segment fold of `render_message` (render.rs lines 157-163):
text segments overwrite `body_text`, attachment markers increment the
attachment counter, other segments are ignored.  The counter is a Rust
`i32` that is only ever incremented from zero, modelled as `Nat`. -/
def extractParts (parts : List Bubble) : Option (List Char) × Nat :=
  parts.foldl
    (fun acc p =>
      match p with
      | Bubble.text t => (some t, acc.2)
      | Bubble.attachment => (acc.1, acc.2 + 1)
      | Bubble.other => acc)
    (none, 0)

/-- The `LatexMessage` struct of render.rs. -/
structure LatexMessage where
  is_from_me : Bool
  body_text : Option (List Char)
  attachment_count : Nat
  date : MsgDate

/-- The attachment badge `\fbox{N Attachment(s)}`
(render.rs lines 118-126). -/
def badge (n : Nat) : List Char :=
  ("\\fbox\x7b").data ++ natDigits n ++ (" Attachment").data ++
    (if n = 1 then [] else ['s']) ++ ['\x7d']

/-- `LatexMessage::render` (render.rs lines 108-142), with the title
fetch injected. -/
def LatexMessage.render (fetch : List Char → Option (List Char))
    (self : LatexMessage) (insert_extra_space : Bool) : List Char :=
  let content :=
    match self.body_text with
    | some t => latex_escape fetch t
    | none => []
  let content :=
    if 0 < self.attachment_count then
      (if content = [] then content else content ++ ("\\enskip").data) ++
        badge self.attachment_count
    else content
  let rendered := dateMark self.date
  let rendered :=
    if insert_extra_space then rendered ++ ("\\insertextraspace\n").data
    else rendered
  rendered ++
    (match self.is_from_me with
     | true => ("\\leftmsg\x7b").data ++ content ++ ("\x7d\n\n").data
     | false => ("\\rightmsg\x7b").data ++ content ++ ("\x7d\n\n").data)

/-- A retrieved, filtered message as the chapter loop sees it:
`payload = some parts` when `msg.gen_text(&db)` succeeds and `msg.body()`
decomposes into `parts`; `payload = none` when `gen_text` fails. -/
structure Msg where
  is_from_me : Bool
  date : MsgDate
  payload : Option (List Bubble)
deriving DecidableEq

/-- `render_message` (render.rs lines 145-166). -/
def render_message (fetch : List Char → Option (List Char)) (m : Msg)
    (parts : List Bubble) (insert_extra_space : Bool) : List Char :=
  LatexMessage.render fetch
    { is_from_me := m.is_from_me
      body_text := (extractParts parts).1
      attachment_count := (extractParts parts).2
      date := m.date }
    insert_extra_space

/-- What the loop body of `iter_messages` writes for one message
(main.rs lines 272-289): the rendered block when `gen_text` succeeds —
always with `insert_extra_space = false` (main.rs line 272) — and nothing
at all when it fails (the failure is only logged). -/
def emit (fetch : List Char → Option (List Char)) (m : Msg) : List Char :=
  match m.payload with
  | some parts => render_message fetch m parts false
  | none => []

/-- The chapter-grouping part of the `iter_messages` loop (main.rs lines
241-270): `cur` is the currently open chapter (its name and its messages
so far); a new chapter is created exactly when a message's chapter name
differs from the current one. -/
def chaptersAux (cur : List Char × List Msg) :
    List Msg → List (List Char × List Msg)
  | [] => [cur]
  | m :: rest =>
    if chapterName m.date = cur.1 then chaptersAux (cur.1, cur.2 ++ [m]) rest
    else cur :: chaptersAux (chapterName m.date, [m]) rest

/-- Chapter grouping of the filtered message stream: the sequence of
chapters (name, message run) the loop of `iter_messages` opens. -/
def chapters : List Msg → List (List Char × List Msg)
  | [] => []
  | m :: rest => chaptersAux (chapterName m.date, [m]) rest

/-- The write log of the `iter_messages` loop: `cur` is the currently
open chapter file (its name and the text written to it so far).  Each
entry of the result corresponds to one `File::create` of a chapter file
together with everything written to that handle (a repeated name models
the truncating re-creation of the file). -/
def chapterWritesAux (fetch : List Char → Option (List Char))
    (cur : List Char × List Char) : List Msg → List (List Char × List Char)
  | [] => [cur]
  | m :: rest =>
    if chapterName m.date = cur.1 then
      chapterWritesAux fetch (cur.1, cur.2 ++ emit fetch m) rest
    else
      cur :: chapterWritesAux fetch
        (chapterName m.date, chapterHeader m.date ++ emit fetch m) rest

/-- Chapter files written by `iter_messages` (name and final content). -/
def chapterWrites (fetch : List Char → Option (List Char)) :
    List Msg → List (List Char × List Char)
  | [] => []
  | m :: rest =>
    chapterWritesAux fetch
      (chapterName m.date, chapterHeader m.date ++ emit fetch m) rest

/-- The `Config` struct of main.rs (strings as `List Char`). -/
structure Config where
  title : List Char
  copyright : List Char
  dedication_title : List Char
  dedication_message : List Char
  preface : Option (List Char)

/-- `String::replace` with a string pattern, structural in a fuel
argument; `fuel = s.length` always suffices since every step consumes at
least one character of `s`. -/
def replaceSubF (pat r : List Char) : Nat → List Char → List Char
  | _, [] => []
  | 0, s => s
  | fuel + 1, c :: cs =>
    if pat ≠ [] ∧ pat.isPrefixOf (c :: cs) then
      r ++ replaceSubF pat r fuel ((c :: cs).drop pat.length)
    else c :: replaceSubF pat r fuel cs

/-- `String::replace` with a string pattern: replace every non-overlapping
occurrence of `pat`, scanning left to right. -/
def replaceSub (pat r s : List Char) : List Char :=
  replaceSubF pat r s.length s

/-- `String::find` for a string pattern, returning the split of `s`
around the first occurrence of `pat` (text before, text after). -/
def findSub (pat : List Char) : List Char → Option (List Char × List Char)
  | [] => none
  | c :: cs =>
    if pat.isPrefixOf (c :: cs) then some ([], (c :: cs).drop pat.length)
    else (findSub pat cs).map (fun ab => (c :: ab.1, ab.2))

/-- The front-matter substitutions on the main template
(main.rs lines 305-313): title, copyright, dedication block. -/
def frontSubs (config : Config) (template : List Char) : List Char :=
  replaceSub
    (("\\begin\x7bcenter\x7d\n  \\textit\x7bDedicated to you.\x7d\n\\end\x7bcenter\x7d").data)
    (("\\begin\x7bcenter\x7d\n  \\textit\x7b").data ++ config.dedication_title ++
      ("\x7d\n\\end\x7bcenter\x7d\n\\begin\x7bcenter\x7d\n  \\textit\x7b").data ++
      config.dedication_message ++ ("\x7d\n\\end\x7bcenter\x7d").data)
    (replaceSub (("ALL RIGHTS RESERVED").data) config.copyright
      (replaceSub (("iMessage Book").data) config.title template))

/-- The preface section inserted before `\mainmatter`
(main.rs line 315). -/
def prefaceSection (p : List Char) : List Char :=
  ("\\chapter*\x7bPreface\x7d\n").data ++ p ++ ("\n\\mainmatter\n").data

/-- Assembly of the root manuscript text before the chapter includes are
appended (main.rs lines 305-320): front-matter substitutions, then, if a
preface is configured and the template contains `\mainmatter`, insertion
of the preface section at that position. -/
def assembleMain (config : Config) (template : List Char) : List Char :=
  match config.preface with
  | some p =>
    match findSub (("\\mainmatter").data) (frontSubs config template) with
    | some ab => ab.1 ++ prefaceSection p ++ ("\\mainmatter").data ++ ab.2
    | none => frontSubs config template
  | none => frontSubs config template

/-- The markup-control characters of the target language
(backslash, dollar, percent, ampersand, underscore, caret, tilde, hash,
braces). -/
def controlChars : List Char :=
  ['\\', '$', '%', '&', '_', '^', '~', '#', '\x7b', '\x7d']

/-- Scanner accepting exactly the strings in which every occurrence of a
markup-control character is part of one of the escape forms produced by
`latex_escape`. -/
def noUnescaped : List Char → Bool
  | [] => true
  | '\\' :: '$' :: r => noUnescaped r
  | '\\' :: '%' :: r => noUnescaped r
  | '\\' :: '&' :: r => noUnescaped r
  | '\\' :: '_' :: r => noUnescaped r
  | '\\' :: '#' :: r => noUnescaped r
  | '\\' :: '\x7b' :: r => noUnescaped r
  | '\\' :: '\x7d' :: r => noUnescaped r
  | '\\' :: 't' :: 'e' :: 'x' :: 't' :: 'b' :: 'a' :: 'c' :: 'k' :: 's' :: 'l' :: 'a' :: 's' :: 'h' :: '\\' :: ' ' :: r => noUnescaped r
  | '\\' :: 't' :: 'e' :: 'x' :: 't' :: 'a' :: 's' :: 'c' :: 'i' :: 'i' :: 'c' :: 'i' :: 'r' :: 'c' :: 'u' :: 'm' :: '\\' :: ' ' :: r => noUnescaped r
  | '\\' :: 't' :: 'e' :: 'x' :: 't' :: 'a' :: 's' :: 'c' :: 'i' :: 'i' :: 't' :: 'i' :: 'l' :: 'd' :: 'e' :: '\\' :: ' ' :: r => noUnescaped r
  | '\\' :: 'n' :: 'e' :: 'w' :: 'l' :: 'i' :: 'n' :: 'e' :: r => noUnescaped r
  | c :: r => !(controlChars.contains c) && noUnescaped r

/-- Description from the spec sentence for the body extractor, for
comparison with `extractParts`: the text segment that ends up as the
body is the LAST one in payload order. -/
def lastTextSeg : List Bubble → Option (List Char)
  | [] => none
  | Bubble.text t :: rest =>
    match lastTextSeg rest with
    | some u => some u
    | none => some t
  | _ :: rest => lastTextSeg rest

/-- Number of attachment-marker segments in a payload. -/
def countAtt : List Bubble → Nat
  | [] => 0
  | Bubble.attachment :: rest => countAtt rest + 1
  | _ :: rest => countAtt rest

/-- `\leftmsg{...}` wrapping of a message body (render.rs line 137). -/
def leftmsgBlock (content : List Char) : List Char :=
  ("\\leftmsg\x7b").data ++ content ++ ("\x7d\n\n").data

/-- `\rightmsg{...}` wrapping of a message body (render.rs line 138). -/
def rightmsgBlock (content : List Char) : List Char :=
  ("\\rightmsg\x7b").data ++ content ++ ("\x7d\n\n").data

/-- Alignment wrapper chosen by the sender flag. -/
def sideBlock (b : Bool) (content : List Char) : List Char :=
  if b then leftmsgBlock content else rightmsgBlock content

/-- The escaped body text of a `LatexMessage` (empty when there is no
body text). -/
def bodyContent (fetch : List Char → Option (List Char))
    (lm : LatexMessage) : List Char :=
  match lm.body_text with
  | some t => latex_escape fetch t
  | none => []

/-- The content of a rendered block: escaped body text, then (when
attachments are present) an `\enskip` separator if and only if the body
text part is nonempty, then the attachment badge. -/
def contentOf (fetch : List Char → Option (List Char))
    (lm : LatexMessage) : List Char :=
  if 0 < lm.attachment_count then
    (if bodyContent fetch lm = [] then bodyContent fetch lm
     else bodyContent fetch lm ++ ("\\enskip").data) ++
      badge lm.attachment_count
  else bodyContent fetch lm

/-- The chapter heading written when the chapter of a (nonempty) message
run was created: derived from its first message's date. -/
def headerOf : List Msg → List Char
  | [] => []
  | m :: _ => chapterHeader m.date

/-- The (year, month) chapter key of a message. -/
def ymOf (m : Msg) : Nat × Nat := (m.date.year, m.date.month)

/-- The (year, month) key of a chapter, read off its first message. -/
def headYm (c : List Char × List Msg) : Nat × Nat :=
  match c.2 with
  | [] => (0, 0)
  | m :: _ => ymOf m

instance : IsTrans (List Char × List Msg)
    (fun c1 c2 => ymLt (headYm c1) (headYm c2)) := by
  constructor
  intro a b c h1 h2
  unfold ymLt at *
  omega

theorem replaceUrlsT_some (tmap : List Char → Option (List Char))
    (s : List Char) (up : List Char × List Char) (h : matchUrlAt s = some up) :
    replaceUrlsT tmap s = urlAnnot up.1 (tmap up.1) ++ replaceUrlsT tmap up.2 := by
  rw [replaceUrlsT.eq_def]
  split
  · next up' heq => rw [h] at heq; cases heq; rfl
  · next heq => rw [h] at heq; cases heq

theorem replaceUrlsT_none_cons (tmap : List Char → Option (List Char))
    (c : Char) (cs : List Char) (h : matchUrlAt (c :: cs) = none) :
    replaceUrlsT tmap (c :: cs) = c :: replaceUrlsT tmap cs := by
  rw [replaceUrlsT.eq_def]
  split
  · next up' heq => rw [h] at heq; cases heq
  · rfl

theorem replaceUrlsT_nil (tmap : List Char → Option (List Char)) :
    replaceUrlsT tmap [] = [] := by
  rw [replaceUrlsT.eq_def]
  split
  · next up' heq =>
    have : matchUrlAt ([] : List Char) = none := by decide
    rw [this] at heq; cases heq
  · rfl

theorem noUrl_replaceUrlsT (s : List Char) (h : noUrl s = true)
    (tmap : List Char → Option (List Char)) : replaceUrlsT tmap s = s := by
  induction s with
  | nil => exact replaceUrlsT_nil tmap
  | cons c cs ih =>
    simp only [noUrl, Bool.and_eq_true, Option.isNone_iff_eq_none] at h
    rw [replaceUrlsT_none_cons tmap c cs h.1, ih h.2]

theorem mem_replaceChar (c : Char) (r : List Char) (s : List Char) (x : Char)
    (h : x ∈ replaceChar c r s) : x ∈ r ∨ x ∈ s := by
  induction s with
  | nil => simp [replaceChar] at h
  | cons a as ih =>
    simp only [replaceChar] at h
    split at h
    · rcases List.mem_append.1 h with h | h
      · exact Or.inl h
      · rcases ih h with h | h
        · exact Or.inl h
        · exact Or.inr (List.mem_cons_of_mem _ h)
    · rcases List.mem_cons.1 h with h | h
      · exact Or.inr (h ▸ List.mem_cons_self _ _)
      · rcases ih h with h | h
        · exact Or.inl h
        · exact Or.inr (List.mem_cons_of_mem _ h)

theorem replaceChar_not_mem {c : Char} {r s : List Char} (h : c ∉ s) :
    replaceChar c r s = s := by
  induction s with
  | nil => rfl
  | cons a as ih =>
    simp only [replaceChar]
    rw [if_neg, ih (fun hm => h (List.mem_cons_of_mem _ hm))]
    intro he
    exact h (he ▸ List.mem_cons_self _ _)

theorem mem_normalizeSmart (s : List Char) (x : Char)
    (h : x ∈ normalizeSmart s) : x ∈ s ∨ x = '\'' ∨ x = '"' ∨ x = '.' := by
  unfold normalizeSmart at h
  rcases mem_replaceChar _ _ _ _ h with h | h
  · right; right; right; simpa using (by simpa using h)
  rcases mem_replaceChar _ _ _ _ h with h | h
  · right; right; left; simpa using h
  rcases mem_replaceChar _ _ _ _ h with h | h
  · right; right; left; simpa using h
  rcases mem_replaceChar _ _ _ _ h with h | h
  · right; left; simpa using h
  · exact Or.inl h

theorem emojiWrap_id {s : List Char} (h : ∀ c ∈ s, isExtPict c = false) :
    emojiWrap s = s := by
  induction s with
  | nil => rfl
  | cons a as ih =>
    have ha : isExtPict a = false := h a (List.mem_cons_self a as)
    simp only [emojiWrap, ha, Bool.false_eq_true, if_false]
    rw [ih (fun c hc => h c (List.mem_cons_of_mem _ hc))]

theorem escapeRest_id {u : List Char}
    (h : ∀ c ∈ u, controlChars.contains c = false)
    (hnl : '\n' ∉ u) (hfe : '️' ∉ u) :
    escapeRest u = u := by
  have notmem : ∀ t : Char, controlChars.contains t = true → t ∉ u := by
    intro t ht hm
    rw [h t hm] at ht
    exact Bool.false_ne_true ht
  unfold escapeRest
  rw [replaceChar_not_mem (notmem '\\' (by decide)),
      replaceChar_not_mem (notmem '$' (by decide)),
      replaceChar_not_mem (notmem '%' (by decide)),
      replaceChar_not_mem (notmem '&' (by decide)),
      replaceChar_not_mem (notmem '_' (by decide)),
      replaceChar_not_mem (notmem '^' (by decide)),
      replaceChar_not_mem (notmem '~' (by decide)),
      replaceChar_not_mem (notmem '#' (by decide)),
      replaceChar_not_mem (notmem '\x7b' (by decide)),
      replaceChar_not_mem (notmem '\x7d' (by decide)),
      replaceChar_not_mem hnl,
      replaceChar_not_mem hfe]

/-- C4: on the sample text `Cost: $5 & 10% off_now` the sanitizer output
is exactly `Cost: \$5 \& 10\% off\_now`; in particular it contains the
escaped forms `\$5 \& 10\% off\_now` as a substring, and no unescaped
markup-control character remains anywhere in it. -/
theorem sanitizer_escapes_sample_text (fetch : List Char → Option (List Char)) :
    latex_escape fetch (("Cost: $5 & 10% off_now").data) =
      ("Cost: \\$5 \\& 10\\% off\\_now").data ∧
    containsSub (("\\$5 \\& 10\\% off\\_now").data)
      (latex_escape fetch (("Cost: $5 & 10% off_now").data)) = true ∧
    noUnescaped (latex_escape fetch (("Cost: $5 & 10% off_now").data)) = true := by
  have h : replaceUrlsT (effectiveTitle fetch) (("Cost: $5 & 10% off_now").data) =
      ("Cost: $5 & 10% off_now").data :=
    noUrl_replaceUrlsT _ (by decide) _
  unfold latex_escape
  rw [h]
  exact ⟨by decide, by decide, by decide⟩

/-- C5 counterexample: the string `a◌b` (with the emoji variation
selector U+FE0F in the middle) contains no markup-control character, no
URL and no emoji, yet the sanitizer does not return it unchanged up to
smart-character normalisation — the variation selector is stripped. -/
theorem sanitizer_roundtrip_counterexample :
    (∀ c ∈ (['a', '️', 'b'] : List Char), controlChars.contains c = false) ∧
    noUrl ['a', '️', 'b'] = true ∧
    (∀ c ∈ (['a', '️', 'b'] : List Char), isExtPict c = false) ∧
    latex_escape (fun _ => none) ['a', '️', 'b'] ≠
      normalizeSmart ['a', '️', 'b'] := by
  refine ⟨by decide, by decide, by decide, ?_⟩
  have h : replaceUrlsT (effectiveTitle (fun _ => none)) ['a', '️', 'b'] =
      ['a', '️', 'b'] :=
    noUrl_replaceUrlsT _ (by decide) _
  unfold latex_escape
  rw [h]
  decide

/-- C5 (amended): a string containing no markup-control character, no
newline, no emoji variation selector U+FE0F, no URL and no emoji is
returned by the sanitizer unchanged except for smart-character
normalisation. -/
theorem sanitizer_roundtrip_amended (s : List Char)
    (hctl : ∀ c ∈ s, controlChars.contains c = false)
    (hnl : '\n' ∉ s) (hfe : '️' ∉ s)
    (hurl : noUrl s = true)
    (hpict : ∀ c ∈ s, isExtPict c = false) :
    ∀ fetch : List Char → Option (List Char),
      latex_escape fetch s = normalizeSmart s := by
  intro fetch
  unfold latex_escape
  rw [noUrl_replaceUrlsT s hurl]
  have hmem : ∀ x ∈ normalizeSmart s, x ∈ s ∨ x = '\'' ∨ x = '"' ∨ x = '.' :=
    mem_normalizeSmart s
  have hctl' : ∀ c ∈ normalizeSmart s, controlChars.contains c = false := by
    intro c hc
    rcases hmem c hc with h | h | h | h
    · exact hctl c h
    all_goals subst h; decide
  have hnl' : '\n' ∉ normalizeSmart s := by
    intro hc
    rcases hmem _ hc with h | h | h | h
    · exact hnl h
    all_goals cases h
  have hfe' : '️' ∉ normalizeSmart s := by
    intro hc
    rcases hmem _ hc with h | h | h | h
    · exact hfe h
    all_goals cases h
  rw [escapeRest_id hctl' hnl' hfe']
  apply emojiWrap_id
  intro c hc
  rcases hmem c hc with h | h | h | h
  · exact hpict c h
  all_goals subst h; decide

/-- Witness for `sanitizer_roundtrip_amended` at the string
`hello world`. -/
theorem sanitizer_roundtrip_amended_witness :
    (∀ c ∈ ("hello world").data, controlChars.contains c = false) ∧
    latex_escape (fun _ => none) (("hello world").data) =
      normalizeSmart (("hello world").data) :=
  ⟨by decide,
   sanitizer_roundtrip_amended (("hello world").data) (by decide) (by decide)
     (by decide) (by decide) (by decide) (fun _ => none)⟩

theorem extract_fold_aux (parts : List Bubble) :
    ∀ (b : Option (List Char)) (n : Nat),
      parts.foldl
        (fun acc p =>
          match p with
          | Bubble.text t => (some t, acc.2)
          | Bubble.attachment => (acc.1, acc.2 + 1)
          | Bubble.other => acc)
        (b, n) =
      ((match lastTextSeg parts with | some t => some t | none => b),
       n + countAtt parts) := by
  induction parts with
  | nil => intro b n; simp [lastTextSeg, countAtt]
  | cons p rest ih =>
    intro b n
    cases p with
    | text t =>
      simp only [List.foldl_cons]
      rw [ih]
      simp only [lastTextSeg, countAtt]
      cases h : lastTextSeg rest <;> simp
    | attachment =>
      simp only [List.foldl_cons]
      rw [ih]
      simp only [lastTextSeg, countAtt]
      cases h : lastTextSeg rest <;> simp <;> omega
    | other =>
      simp only [List.foldl_cons]
      rw [ih]
      simp only [lastTextSeg, countAtt]

/-- C2 counterexample: for the payload `[Text "a", Text "b"]` the
rendered body text is `b`, the LAST text segment, not the first one `a`
as the claim states. -/
theorem body_text_first_segment_counterexample :
    extractParts [Bubble.text (("a").data), Bubble.text (("b").data)] =
      (some (("b").data), 0) ∧
    (some (("b").data) : Option (List Char)) ≠ some (("a").data) :=
  ⟨by decide, by decide⟩

/-- C2 (amended): for every decoded payload, the LAST text segment
becomes the rendered body text (text segments overwrite each other in
payload order), every attachment-marker segment increments the
attachment counter by one, and all other segment kinds contribute
nothing. -/
theorem body_text_last_segment_wins (parts : List Bubble) :
    extractParts parts = (lastTextSeg parts, countAtt parts) := by
  unfold extractParts
  rw [extract_fold_aux]
  cases h : lastTextSeg parts <;> simp

theorem render_structure (fetch : List Char → Option (List Char))
    (lm : LatexMessage) (es : Bool) :
    LatexMessage.render fetch lm es =
      dateMark lm.date ++ (if es then ("\\insertextraspace\n").data else []) ++
        sideBlock lm.is_from_me (contentOf fetch lm) := by
  unfold LatexMessage.render contentOf bodyContent sideBlock leftmsgBlock rightmsgBlock
  cases es <;> cases hb : lm.is_from_me <;> simp [List.append_assoc]

/-- C10: a rendered block is wrapped in the left-aligned `\leftmsg` form
exactly when the sender flag `is_from_me` is true, and in the
right-aligned `\rightmsg` form exactly when it is false. -/
theorem sender_flag_alignment (fetch : List Char → Option (List Char))
    (lm : LatexMessage) (es : Bool) :
    LatexMessage.render fetch lm es =
      dateMark lm.date ++ (if es then ("\\insertextraspace\n").data else []) ++
        (if lm.is_from_me then leftmsgBlock (contentOf fetch lm)
         else rightmsgBlock (contentOf fetch lm)) := by
  rw [render_structure]
  rfl

theorem latex_escape_nil (fetch : List Char → Option (List Char)) :
    latex_escape fetch [] = [] := by
  unfold latex_escape
  rw [replaceUrlsT_nil]
  rfl

/-- C8: a message with two attachments and empty body text renders as the
date marker followed by the aligned block containing exactly the
pluralized badge `2 Attachments`, with no separator before it; the badge
label is singular exactly for one attachment and pluralized otherwise;
the `\enskip` separator exists only when the body-text part is nonempty
(and an absent or empty body text always yields an empty body part). -/
theorem attachment_badge_rendering (fetch : List Char → Option (List Char))
    (b : Bool) (d : MsgDate) (bt : Option (List Char)) (n : Nat) :
    (bt = none ∨ bt = some [] →
      LatexMessage.render fetch ⟨b, bt, 2, d⟩ false =
        dateMark d ++ sideBlock b (("\\fbox\x7b2 Attachments\x7d").data)) ∧
    badge 1 = ("\\fbox\x7b1 Attachment\x7d").data ∧
    (n ≠ 1 → badge n =
      ("\\fbox\x7b").data ++ natDigits n ++ (" Attachment").data ++ ['s'] ++ ['\x7d']) ∧
    (0 < n → bt = none ∨ bt = some [] →
      contentOf fetch ⟨b, bt, n, d⟩ = badge n) ∧
    latex_escape fetch [] = [] := by
  have hbody : bt = none ∨ bt = some [] →
      bodyContent fetch { is_from_me := b, body_text := bt, attachment_count := n, date := d } = [] := by
    intro hbt
    rcases hbt with hbt | hbt <;> subst hbt
    · rfl
    · simp only [bodyContent]
      exact latex_escape_nil fetch
  have hbody2 : bt = none ∨ bt = some [] →
      bodyContent fetch { is_from_me := b, body_text := bt, attachment_count := 2, date := d } = [] := by
    intro hbt
    rcases hbt with hbt | hbt <;> subst hbt
    · rfl
    · simp only [bodyContent]
      exact latex_escape_nil fetch
  have hcont : ∀ m : Nat, 0 < m →
      bodyContent fetch { is_from_me := b, body_text := bt, attachment_count := m, date := d } = [] →
      contentOf fetch { is_from_me := b, body_text := bt, attachment_count := m, date := d } = badge m := by
    intro m hm hb
    unfold contentOf
    rw [if_pos hm, hb]
    simp
  refine ⟨?_, by decide, ?_, ?_, latex_escape_nil fetch⟩
  · intro hbt
    rw [render_structure]
    have h2 := hcont 2 (by decide) (hbody2 hbt)
    rw [h2]
    have : badge 2 = ("\\fbox\x7b2 Attachments\x7d").data := by decide
    rw [this]
    simp
  · intro hn
    unfold badge
    rw [if_neg hn]
  · intro hm hbt
    exact hcont n hm (hbody hbt)

/-- Witness for `attachment_badge_rendering` at a concrete date, sender
flag, empty body and five attachments. -/
theorem attachment_badge_rendering_witness :
    (LatexMessage.render (fun _ => none) ⟨true, none, 2, ⟨2020, 5, 1, 0⟩⟩ false =
      dateMark ⟨2020, 5, 1, 0⟩ ++ sideBlock true (("\\fbox\x7b2 Attachments\x7d").data)) ∧
    badge 1 = ("\\fbox\x7b1 Attachment\x7d").data ∧
    badge 5 = ("\\fbox\x7b").data ++ natDigits 5 ++ (" Attachment").data ++ ['s'] ++ ['\x7d'] ∧
    contentOf (fun _ => none) ⟨true, none, 5, ⟨2020, 5, 1, 0⟩⟩ = badge 5 ∧
    latex_escape (fun _ => none) [] = [] := by
  have h := attachment_badge_rendering (fun _ => none) true ⟨2020, 5, 1, 0⟩ none 5
  exact ⟨h.1 (Or.inl rfl), h.2.1, h.2.2.1 (by decide),
         h.2.2.2.1 (by decide) (Or.inl rfl), h.2.2.2.2⟩

/-- C6: each URL match is replaced by an inline annotation built from the
URL's second path component (the host) plus the effective title when one
exists; a fetched title containing an exclusion-list entry is discarded
exactly as a failed fetch is, and the rendered output depends on the
fetch only through the effective titles, so both render identically. -/
theorem url_annotation_host_and_title
    (fetch f g : List Char → Option (List Char)) (url title text : List Char)
    (up : List Char × List Char) :
    (∀ t, urlAnnot url (some t) =
      ("(link: ").data ++ corePart url ++ (", ").data ++ t ++ (")").data) ∧
    (urlAnnot url none = ("(link: ").data ++ corePart url ++ (")").data) ∧
    (fetch url = some title → containsUndesired title = true →
      effectiveTitle fetch url = none) ∧
    (effectiveTitle (fun _ => none) url = none) ∧
    ((∀ u, effectiveTitle f u = effectiveTitle g u) →
      latex_escape f text = latex_escape g text) ∧
    (matchUrlAt text = some up →
      replaceUrlsT (effectiveTitle fetch) text =
        urlAnnot up.1 (effectiveTitle fetch up.1) ++
          replaceUrlsT (effectiveTitle fetch) up.2) := by
  refine ⟨fun t => rfl, rfl, ?_, rfl, ?_, ?_⟩
  · intro h1 h2
    unfold effectiveTitle
    rw [h1]
    show (if containsUndesired title = true then none
          else some (simplifyTitle title)) = none
    rw [if_pos h2]
  · intro h
    have hfg : effectiveTitle f = effectiveTitle g := funext h
    unfold latex_escape
    rw [hfg]
  · intro h
    exact replaceUrlsT_some _ text up h

/-- Witness for `url_annotation_host_and_title` with a concrete URL, an
excluded fetched title (`404 not found`) and a failing fetch. -/
theorem url_annotation_host_and_title_witness :
    urlAnnot (("https://x.com/p").data) (some (("T").data)) =
      ("(link: ").data ++ corePart (("https://x.com/p").data) ++ (", ").data ++
        ("T").data ++ (")").data ∧
    effectiveTitle (fun _ => some (("404 not found").data)) (("https://x.com/p").data) = none ∧
    effectiveTitle (fun _ => none) (("https://x.com/p").data) = none ∧
    latex_escape (fun _ => some (("404 not found").data)) (("https://x.com rest").data) =
      latex_escape (fun _ => none) (("https://x.com rest").data) ∧
    replaceUrlsT (effectiveTitle (fun _ => some (("404 not found").data)))
        (("https://x.com rest").data) =
      urlAnnot (("https://x.com").data)
          (effectiveTitle (fun _ => some (("404 not found").data)) (("https://x.com").data)) ++
        replaceUrlsT (effectiveTitle (fun _ => some (("404 not found").data)))
          ((" rest").data) := by
  have h := url_annotation_host_and_title
    (fun _ => some (("404 not found").data))
    (fun _ => some (("404 not found").data)) (fun _ => none)
    (("https://x.com/p").data) (("404 not found").data)
    (("https://x.com rest").data)
    ((("https://x.com").data), ((" rest").data))
  refine ⟨h.1 (("T").data), h.2.2.1 rfl (by decide), h.2.2.2.1, h.2.2.2.2.1 ?_,
          h.2.2.2.2.2 (by decide)⟩
  intro u
  show (if containsUndesired (("404 not found").data) = true then none
        else some (simplifyTitle (("404 not found").data))) = (none : Option (List Char))
  rw [if_pos (show containsUndesired (("404 not found").data) = true from by decide)]

theorem isPrefixOf_decomp :
    ∀ (l s : List Char), l.isPrefixOf s = true → s = l ++ s.drop l.length := by
  intro l
  induction l with
  | nil => intro s _; simp
  | cons a as ih =>
    intro s h
    cases s with
    | nil => simp [List.isPrefixOf] at h
    | cons b bs =>
      simp only [List.isPrefixOf, Bool.and_eq_true, beq_iff_eq] at h
      obtain ⟨rfl, h2⟩ := h
      simp only [List.length_cons, List.drop_succ_cons, List.cons_append]
      exact congrArg _ (ih bs h2)

theorem findSub_sound (pat : List Char) :
    ∀ (s a b : List Char), findSub pat s = some (a, b) → s = a ++ pat ++ b := by
  intro s
  induction s with
  | nil => intro a b h; simp [findSub] at h
  | cons c cs ih =>
    intro a b h
    simp only [findSub] at h
    split at h
    · next hpre =>
      cases h
      simpa using isPrefixOf_decomp pat (c :: cs) hpre
    · cases hfs : findSub pat cs with
      | none => rw [hfs] at h; cases h
      | some ab =>
        rw [hfs] at h
        simp only [Option.map_some'] at h
        cases h
        simpa using ih ab.1 ab.2 (by rw [hfs])

/-- C9: when a preface is configured and the substituted template
contains the main-body marker `\mainmatter`, the assembled root
manuscript consists of the template text before the first marker
occurrence, then the preface section, then the marker and the rest of
the template text unchanged. -/
theorem preface_inserted_before_mainmatter (config : Config)
    (template p a b : List Char)
    (hp : config.preface = some p)
    (hf : findSub (("\\mainmatter").data) (frontSubs config template) = some (a, b)) :
    assembleMain config template =
      a ++ prefaceSection p ++ ("\\mainmatter").data ++ b ∧
    frontSubs config template = a ++ ("\\mainmatter").data ++ b := by
  constructor
  · obtain ⟨ct, cc, cdt, cdm, cp⟩ := config
    simp only [] at hp hf
    subst hp
    unfold assembleMain
    rw [hf]
  · exact findSub_sound (("\\mainmatter").data) (frontSubs config template) a b hf

/-- Witness for `preface_inserted_before_mainmatter` on a small concrete
template containing the title placeholder and the marker. -/
theorem preface_inserted_before_mainmatter_witness :
    findSub (("\\mainmatter").data)
        (frontSubs
          ⟨("T").data, ("C").data, ("DT").data, ("DM").data, some (("P").data)⟩
          (("A iMessage Book B\n\\mainmatter rest").data)) =
      some ((("A T B\n").data), ((" rest").data)) ∧
    (assembleMain
        ⟨("T").data, ("C").data, ("DT").data, ("DM").data, some (("P").data)⟩
        (("A iMessage Book B\n\\mainmatter rest").data) =
      ("A T B\n").data ++ prefaceSection (("P").data) ++ ("\\mainmatter").data ++
        (" rest").data ∧
     frontSubs
        ⟨("T").data, ("C").data, ("DT").data, ("DM").data, some (("P").data)⟩
        (("A iMessage Book B\n\\mainmatter rest").data) =
      ("A T B\n").data ++ ("\\mainmatter").data ++ (" rest").data) :=
  ⟨by decide,
   preface_inserted_before_mainmatter _ _ (("P").data) _ _ rfl (by decide)⟩

theorem chapterWritesAux_eq (fetch : List Char → Option (List Char)) :
    ∀ (rest : List Msg) (name : List Char) (ms : List Msg), ms ≠ [] →
      chapterWritesAux fetch (name, headerOf ms ++ (ms.map (emit fetch)).flatten) rest =
        (chaptersAux (name, ms) rest).map
          (fun c => (c.1, headerOf c.2 ++ (c.2.map (emit fetch)).flatten)) := by
  intro rest
  induction rest with
  | nil => intro name ms hms; simp [chapterWritesAux, chaptersAux]
  | cons m rest ih =>
    intro name ms hms
    simp only [chapterWritesAux, chaptersAux]
    by_cases h : chapterName m.date = name
    · rw [if_pos h, if_pos h]
      have hjoin : (headerOf ms ++ (ms.map (emit fetch)).flatten) ++ emit fetch m =
          headerOf (ms ++ [m]) ++ ((ms ++ [m]).map (emit fetch)).flatten := by
        cases ms with
        | nil => exact absurd rfl hms
        | cons m0 ms0 => simp [headerOf, List.append_assoc]
      rw [hjoin]
      exact ih name (ms ++ [m]) (by simp)
    · rw [if_neg h, if_neg h]
      simp only [List.map_cons]
      congr 1
      have hone : chapterHeader m.date ++ emit fetch m =
          headerOf [m] ++ (([m]).map (emit fetch)).flatten := by
        simp [headerOf]
      rw [hone]
      exact ih (chapterName m.date) [m] (by simp)

/-- C7: a message whose payload fails to decode contributes nothing to
any chapter file — every chapter file's content is its heading followed
by exactly the blocks of its successfully decoded messages, and a
failing message's block is empty — while the loop continues over all
remaining messages (the write log is defined for the whole stream). -/
theorem decode_failure_skips_message (fetch : List Char → Option (List Char))
    (msgs : List Msg) :
    chapterWrites fetch msgs =
      (chapters msgs).map
        (fun c => (c.1, headerOf c.2 ++ (c.2.map (emit fetch)).flatten)) ∧
    ∀ m : Msg, m.payload = none → emit fetch m = [] := by
  constructor
  · cases msgs with
    | nil => rfl
    | cons m rest =>
      simp only [chapterWrites, chapters]
      have hone : chapterHeader m.date ++ emit fetch m =
          headerOf [m] ++ (([m]).map (emit fetch)).flatten := by
        simp [headerOf]
      rw [hone]
      exact chapterWritesAux_eq fetch rest (chapterName m.date) [m] (by simp)
  · intro m hm
    unfold emit
    rw [hm]

/-- Witness for `decode_failure_skips_message` on a one-message stream
whose payload fails to decode. -/
theorem decode_failure_skips_message_witness :
    (chapterWrites (fun _ => none) [⟨true, ⟨2020, 5, 1, 0⟩, none⟩] =
      (chapters [⟨true, ⟨2020, 5, 1, 0⟩, none⟩]).map
        (fun c => (c.1, headerOf c.2 ++ (c.2.map (emit (fun _ => none))).flatten))) ∧
    emit (fun _ => none) ⟨true, ⟨2020, 5, 1, 0⟩, none⟩ = [] := by
  have h := decode_failure_skips_message (fun _ => none) [⟨true, ⟨2020, 5, 1, 0⟩, none⟩]
  exact ⟨h.1, h.2 _ rfl⟩

/-- C1 counterexample: two consecutively rendered messages of the same
chapter with equal sender flags, for which the claim demands a spacing
directive before the second block; but the loop passes
`insert_extra_space = false` unconditionally (main.rs line 272), and the
chapter file contains no `\insertextraspace` directive at all. -/
theorem spacing_directive_counterexample :
    chapterWrites (fun _ => none)
        [⟨true, ⟨2020, 5, 1, 0⟩, some [Bubble.attachment]⟩,
         ⟨true, ⟨2020, 5, 2, 0⟩, some [Bubble.attachment]⟩] =
      [(("ch-2020-05").data,
        ("\\chapter\x7bMay 2020\x7d\n\n\\markright\x7bMay  1, 2020\x7d\n\\leftmsg\x7b\\fbox\x7b1 Attachment\x7d\x7d\n\n\\markright\x7bMay  2, 2020\x7d\n\\leftmsg\x7b\\fbox\x7b1 Attachment\x7d\x7d\n\n").data)] ∧
    containsSub (("\\insertextraspace").data)
      (("\\chapter\x7bMay 2020\x7d\n\n\\markright\x7bMay  1, 2020\x7d\n\\leftmsg\x7b\\fbox\x7b1 Attachment\x7d\x7d\n\n\\markright\x7bMay  2, 2020\x7d\n\\leftmsg\x7b\\fbox\x7b1 Attachment\x7d\x7d\n\n").data) = false ∧
    chapterName (⟨2020, 5, 1, 0⟩ : MsgDate) = chapterName ⟨2020, 5, 2, 0⟩ := by
  refine ⟨by decide, by decide, by decide⟩

/-- C1 (amended): no spacing directive is ever emitted: the loop renders
every message with `insert_extra_space = false` (main.rs line 272), so
every successfully decoded message's block is the date marker followed
immediately by the aligned body — in particular also the second of two
consecutive same-flag messages, and the first message of a chapter. -/
theorem spacing_directive_never_emitted (fetch : List Char → Option (List Char))
    (m : Msg) (parts : List Bubble) (hp : m.payload = some parts) :
    emit fetch m =
      dateMark m.date ++
        sideBlock m.is_from_me
          (contentOf fetch
            ⟨m.is_from_me, (extractParts parts).1, (extractParts parts).2, m.date⟩) := by
  unfold emit
  rw [hp]
  show render_message fetch m parts false = _
  unfold render_message
  rw [render_structure]
  simp

/-- Witness for `spacing_directive_never_emitted` on a concrete decoded
message. -/
theorem spacing_directive_never_emitted_witness :
    (⟨true, ⟨2020, 5, 1, 0⟩, some [Bubble.attachment]⟩ : Msg).payload =
      some [Bubble.attachment] ∧
    emit (fun _ => none) ⟨true, ⟨2020, 5, 1, 0⟩, some [Bubble.attachment]⟩ =
      dateMark ⟨2020, 5, 1, 0⟩ ++
        sideBlock true
          (contentOf (fun _ => none)
            ⟨true, (extractParts [Bubble.attachment]).1,
             (extractParts [Bubble.attachment]).2, ⟨2020, 5, 1, 0⟩⟩) :=
  ⟨rfl, spacing_directive_never_emitted (fun _ => none) _ [Bubble.attachment] rfl⟩

theorem digitChar_inj (a b : Nat) (ha : a < 10) (hb : b < 10)
    (h : digitChar a = digitChar b) : a = b := by
  interval_cases a <;> interval_cases b <;> first | rfl | (exact absurd h (by decide))

theorem chNameYM_inj (x y : Nat × Nat) (hx2 : x.2 < 100) (hy2 : y.2 < 100)
    (hx1 : x.1 < 10000) (hy1 : y.1 < 10000)
    (h : chNameYM x = chNameYM y) : x = y := by
  obtain ⟨x1, x2⟩ := x
  obtain ⟨y1, y2⟩ := y
  simp only [chNameYM, pad4, pad2, List.cons_append, List.nil_append,
    List.cons.injEq, and_true, true_and] at h
  obtain ⟨h1, h2, h3, h4, h5, h6⟩ := h
  simp only [] at hx1 hx2 hy1 hy2
  have e1 := digitChar_inj _ _ (by omega) (by omega) h1
  have e2 := digitChar_inj _ _ (by omega) (by omega) h2
  have e3 := digitChar_inj _ _ (by omega) (by omega) h3
  have e4 := digitChar_inj _ _ (by omega) (by omega) h4
  have e5 := digitChar_inj _ _ (by omega) (by omega) h5
  have e6 := digitChar_inj _ _ (by omega) (by omega) h6
  have : x1 = y1 := by omega
  have : x2 = y2 := by omega
  simp_all

theorem dLe_ymLe (a b : MsgDate) (h : dLe a b) :
    ymLe (a.year, a.month) (b.year, b.month) := by
  unfold dLe at h
  unfold ymLe
  rcases h with h | ⟨he, h⟩
  · exact Or.inl h
  · rcases h with h | ⟨hm, _⟩
    · exact Or.inr ⟨he, Nat.le_of_lt h⟩
    · exact Or.inr ⟨he, Nat.le_of_eq hm⟩

theorem ymLe_ne_lt (a b : Nat × Nat) (h : ymLe a b) (hne : a ≠ b) : ymLt a b := by
  obtain ⟨a1, a2⟩ := a
  obtain ⟨b1, b2⟩ := b
  unfold ymLe at h
  unfold ymLt
  simp only [Prod.mk.injEq] at hne ⊢
  rcases h with h | ⟨he, h⟩
  · exact Or.inl h
  · subst he
    have hne2 : a2 ≠ b2 := by
      intro e
      exact hne (by rw [e])
    exact Or.inr ⟨rfl, Nat.lt_of_le_of_ne h hne2⟩

theorem ymLt_ne (a b : Nat × Nat) (h : ymLt a b) : a ≠ b := by
  intro he
  subst he
  unfold ymLt at h
  omega

theorem chaptersAux_join :
    ∀ (rest : List Msg) (cur : List Char × List Msg),
      ((chaptersAux cur rest).map Prod.snd).flatten = cur.2 ++ rest := by
  intro rest
  induction rest with
  | nil => intro cur; simp [chaptersAux]
  | cons m rest ih =>
    intro cur
    simp only [chaptersAux]
    by_cases h : chapterName m.date = cur.1
    · rw [if_pos h, ih]
      simp
    · rw [if_neg h]
      simp only [List.map_cons, List.flatten_cons]
      rw [ih]
      simp

theorem chaptersAux_mem_props :
    ∀ (rest : List Msg) (cur : List Char × List Msg),
      cur.2 ≠ [] → (∀ x ∈ cur.2, chapterName x.date = cur.1) →
      ∀ c ∈ chaptersAux cur rest, c.2 ≠ [] ∧ ∀ x ∈ c.2, chapterName x.date = c.1 := by
  intro rest
  induction rest with
  | nil =>
    intro cur h1 h2 c hc
    simp only [chaptersAux, List.mem_singleton] at hc
    subst hc
    exact ⟨h1, h2⟩
  | cons m rest ih =>
    intro cur h1 h2 c hc
    simp only [chaptersAux] at hc
    by_cases h : chapterName m.date = cur.1
    · rw [if_pos h] at hc
      refine ih (cur.1, cur.2 ++ [m]) (by simp) ?_ c hc
      intro x hx
      rcases List.mem_append.1 hx with hx | hx
      · exact h2 x hx
      · simp only [List.mem_singleton] at hx
        subst hx
        exact h
    · rw [if_neg h] at hc
      rcases List.mem_cons.1 hc with hc | hc
      · subst hc
        exact ⟨h1, h2⟩
      · exact ih (chapterName m.date, [m]) (by simp) (by simp) c hc

theorem chaptersAux_head :
    ∀ (rest : List Msg) (cur : List Char × List Msg), cur.2 ≠ [] →
      ∃ c t, chaptersAux cur rest = c :: t ∧ c.2.head? = cur.2.head? := by
  intro rest
  induction rest with
  | nil => intro cur _; exact ⟨cur, [], rfl, rfl⟩
  | cons m rest ih =>
    intro cur h
    simp only [chaptersAux]
    by_cases hc : chapterName m.date = cur.1
    · rw [if_pos hc]
      obtain ⟨c, t, he, hh⟩ := ih (cur.1, cur.2 ++ [m]) (by simp)
      refine ⟨c, t, he, ?_⟩
      rw [hh]
      cases cur2 : cur.2 with
      | nil => exact absurd cur2 h
      | cons a as => simp
    · rw [if_neg hc]
      exact ⟨cur, _, rfl, rfl⟩

theorem chaptersAux_chain :
    ∀ (rest : List Msg) (cur : List Char × List Msg) (ymc : Nat × Nat),
      cur.2 ≠ [] →
      (∀ x ∈ cur.2, ymOf x = ymc) →
      cur.1 = chNameYM ymc →
      List.Chain' (fun a b => dLe a.date b.date) (cur.2 ++ rest) →
      (∀ x ∈ cur.2 ++ rest, x.date.month ≤ 12 ∧ x.date.year < 10000) →
      List.Chain' (fun c1 c2 => ymLt (headYm c1) (headYm c2)) (chaptersAux cur rest) := by
  intro rest
  induction rest with
  | nil => intro cur ymc _ _ _ _ _; simp [chaptersAux]
  | cons m rest ih =>
    intro cur ymc h1 h2 h3 hch hv
    simp only [chaptersAux]
    by_cases h : chapterName m.date = cur.1
    · rw [if_pos h]
      have hmv : m.date.month ≤ 12 ∧ m.date.year < 10000 := hv m (by simp)
      obtain ⟨x0, hx0⟩ := List.exists_mem_of_ne_nil cur.2 h1
      have hx0v := hv x0 (List.mem_append_left _ hx0)
      have hymc0 : ymOf x0 = ymc := h2 x0 hx0
      have hym : ymOf m = ymc := by
        apply chNameYM_inj (ymOf m) ymc
        · show m.date.month < 100
          omega
        · rw [← hymc0]
          show x0.date.month < 100
          omega
        · show m.date.year < 10000
          omega
        · rw [← hymc0]
          show x0.date.year < 10000
          omega
        · rw [← h3, ← h]
          rfl
      refine ih (cur.1, cur.2 ++ [m]) ymc (by simp) ?_ h3 ?_ ?_
      · intro x hx
        rcases List.mem_append.1 hx with hx | hx
        · exact h2 x hx
        · simp only [List.mem_singleton] at hx
          subst hx
          exact hym
      · simpa [List.append_assoc] using hch
      · intro x hx
        apply hv
        simpa [List.append_assoc] using hx
    · rw [if_neg h]
      rw [List.chain'_cons']
      constructor
      · obtain ⟨c, t, he, hh⟩ := chaptersAux_head rest (chapterName m.date, [m]) (by simp)
        rw [he]
        intro y hy
        simp only [List.head?_cons, Option.mem_def, Option.some.injEq] at hy
        subst hy
        have hc2 : headYm c = ymOf m := by
          cases hcc : c.2 with
          | nil =>
            rw [hcc] at hh
            simp at hh
          | cons a as =>
            rw [hcc] at hh
            simp only [List.head?_cons, Option.some.injEq] at hh
            unfold headYm
            rw [hcc, hh]
        have hcur : headYm cur = ymc := by
          cases hcu : cur.2 with
          | nil => exact absurd hcu h1
          | cons a as =>
            have ha : a ∈ cur.2 := by
              rw [hcu]
              exact List.mem_cons_self a as
            have := h2 a ha
            unfold headYm
            rw [hcu]
            exact this
        rw [hc2, hcur]
        have hlink := (List.chain'_append.1 hch).2.2
        have hgl : cur.2.getLast? = some (cur.2.getLast h1) :=
          List.getLast?_eq_getLast_of_ne_nil h1
        have hdle : dLe (cur.2.getLast h1).date m.date := by
          apply hlink
          · rw [hgl]
            rfl
          · rfl
        have hgm : ymOf (cur.2.getLast h1) = ymc := h2 _ (List.getLast_mem h1)
        have hle : ymLe ymc (ymOf m) := by
          have hw := dLe_ymLe _ _ hdle
          rw [← hgm]
          exact hw
        have hne : ymc ≠ ymOf m := by
          intro he2
          apply h
          show chNameYM (m.date.year, m.date.month) = cur.1
          rw [h3, he2]
          rfl
        exact ymLe_ne_lt _ _ hle hne
      · refine ih (chapterName m.date, [m]) (ymOf m) (by simp) ?_ rfl ?_ ?_
        · intro x hx
          simp only [List.mem_singleton] at hx
          subst hx
          rfl
        · have hw := (List.chain'_append.1 hch).2.1
          simpa using hw
        · intro x hx
          apply hv
          rcases List.mem_append.1 hx with hx | hx
          · simp only [List.mem_singleton] at hx
            subst hx
            simp
          · exact List.mem_append_right _ (List.mem_cons_of_mem m hx)

/-- C3: for a filtered, date-ascending message stream (with calendar-valid
local dates), the chaptering loop assigns every message to exactly one
chapter: the concatenation of the chapters' message runs is the input
stream itself (so chapters are contiguous, non-overlapping and
order-preserving), every chapter is nonempty, all messages of a chapter
share its `ch-%Y-%m` key string and hence its (year, month) key, and the
chapter keys are pairwise distinct — a key is never reopened after a
later key has started. -/
theorem chaptering_partitions_input (msgs : List Msg)
    (hsorted : List.Chain' (fun a b => dLe a.date b.date) msgs)
    (hvalid : ∀ m ∈ msgs, m.date.month ≤ 12 ∧ m.date.year < 10000) :
    ((chapters msgs).map Prod.snd).flatten = msgs ∧
    (∀ c ∈ chapters msgs, c.2 ≠ [] ∧ ∀ x ∈ c.2, chapterName x.date = c.1) ∧
    (∀ c ∈ chapters msgs, ∀ x ∈ c.2, ∀ y ∈ c.2, ymOf x = ymOf y) ∧
    ((chapters msgs).map Prod.fst).Nodup := by
  cases msgs with
  | nil => exact ⟨rfl, by simp [chapters], by simp [chapters], by simp [chapters]⟩
  | cons m rest =>
    have hjoin : ((chapters (m :: rest)).map Prod.snd).flatten = m :: rest := by
      simp only [chapters]
      rw [chaptersAux_join]
      rfl
    have hmem : ∀ c ∈ chapters (m :: rest),
        c.2 ≠ [] ∧ ∀ x ∈ c.2, chapterName x.date = c.1 := by
      simp only [chapters]
      exact chaptersAux_mem_props rest (chapterName m.date, [m]) (by simp) (by simp)
    have hsub : ∀ c ∈ chapters (m :: rest), ∀ x ∈ c.2, x ∈ m :: rest := by
      intro c hc x hx
      rw [← hjoin]
      exact List.mem_flatten.2 ⟨c.2, List.mem_map_of_mem Prod.snd hc, hx⟩
    have hyms : ∀ c ∈ chapters (m :: rest), ∀ x ∈ c.2, ∀ y ∈ c.2, ymOf x = ymOf y := by
      intro c hc x hx y hy
      have hx1 := (hmem c hc).2 x hx
      have hy1 := (hmem c hc).2 y hy
      have hvx := hvalid x (hsub c hc x hx)
      have hvy := hvalid y (hsub c hc y hy)
      apply chNameYM_inj (ymOf x) (ymOf y)
      · show x.date.month < 100
        omega
      · show y.date.month < 100
        omega
      · show x.date.year < 10000
        omega
      · show y.date.year < 10000
        omega
      · show chapterName x.date = chapterName y.date
        rw [hx1, hy1]
    have hchain : List.Chain' (fun c1 c2 => ymLt (headYm c1) (headYm c2))
        (chapters (m :: rest)) := by
      simp only [chapters]
      refine chaptersAux_chain rest (chapterName m.date, [m]) (ymOf m) (by simp)
        ?_ rfl (by simpa using hsorted) (by simpa using hvalid)
      intro x hx
      simp only [List.mem_singleton] at hx
      subst hx
      rfl
    refine ⟨hjoin, hmem, hyms, ?_⟩
    have hpair : List.Pairwise (fun c1 c2 => ymLt (headYm c1) (headYm c2))
        (chapters (m :: rest)) := List.chain'_iff_pairwise.1 hchain
    have hvym : ∀ x ∈ (chapters (m :: rest)).map headYm,
        x.2 ≤ 12 ∧ x.1 < 10000 := by
      intro x hx
      obtain ⟨c, hc, rfl⟩ := List.mem_map.1 hx
      obtain ⟨hne', hall⟩ := hmem c hc
      cases hcc : c.2 with
      | nil => exact absurd hcc hne'
      | cons a as =>
        have ha : a ∈ m :: rest := hsub c hc a (by rw [hcc]; exact List.mem_cons_self a as)
        have := hvalid a ha
        unfold headYm
        rw [hcc]
        exact this
    have hmapeq : (chapters (m :: rest)).map Prod.fst =
        ((chapters (m :: rest)).map headYm).map chNameYM := by
      rw [List.map_map]
      apply List.map_congr_left
      intro c hc
      obtain ⟨hne', hall⟩ := hmem c hc
      cases hcc : c.2 with
      | nil => exact absurd hcc hne'
      | cons a as =>
        have hna := hall a (by rw [hcc]; exact List.mem_cons_self a as)
        show c.1 = chNameYM (headYm c)
        unfold headYm
        rw [hcc, ← hna]
        rfl
    rw [hmapeq]
    apply List.Nodup.map_on
    · intro x hx y hy hxy
      have hvx := hvym x hx
      have hvy := hvym y hy
      exact chNameYM_inj x y (by omega) (by omega) (by omega) (by omega) hxy
    · exact (List.pairwise_map.2 hpair).imp (fun hab => ymLt_ne _ _ hab)

/-- Witness for `chaptering_partitions_input` on a sorted three-message
stream spanning two months. -/
theorem chaptering_partitions_input_witness :
    List.Chain' (fun a b => dLe a.date b.date)
      ([⟨true, ⟨2020, 4, 30, 5⟩, none⟩, ⟨false, ⟨2020, 5, 1, 0⟩, none⟩,
        ⟨true, ⟨2020, 5, 2, 3⟩, none⟩] : List Msg) ∧
    (((chapters [⟨true, ⟨2020, 4, 30, 5⟩, none⟩, ⟨false, ⟨2020, 5, 1, 0⟩, none⟩,
        ⟨true, ⟨2020, 5, 2, 3⟩, none⟩]).map Prod.snd).flatten =
      [⟨true, ⟨2020, 4, 30, 5⟩, none⟩, ⟨false, ⟨2020, 5, 1, 0⟩, none⟩,
       ⟨true, ⟨2020, 5, 2, 3⟩, none⟩] ∧
     (∀ c ∈ chapters [⟨true, ⟨2020, 4, 30, 5⟩, none⟩, ⟨false, ⟨2020, 5, 1, 0⟩, none⟩,
        ⟨true, ⟨2020, 5, 2, 3⟩, none⟩], c.2 ≠ [] ∧ ∀ x ∈ c.2, chapterName x.date = c.1) ∧
     (∀ c ∈ chapters [⟨true, ⟨2020, 4, 30, 5⟩, none⟩, ⟨false, ⟨2020, 5, 1, 0⟩, none⟩,
        ⟨true, ⟨2020, 5, 2, 3⟩, none⟩], ∀ x ∈ c.2, ∀ y ∈ c.2, ymOf x = ymOf y) ∧
     ((chapters [⟨true, ⟨2020, 4, 30, 5⟩, none⟩, ⟨false, ⟨2020, 5, 1, 0⟩, none⟩,
        ⟨true, ⟨2020, 5, 2, 3⟩, none⟩]).map Prod.fst).Nodup) :=
  ⟨by
    simp only [List.chain'_cons, List.chain'_singleton, and_true]
    exact ⟨by decide, by decide⟩,
   chaptering_partitions_input _
     (by
       simp only [List.chain'_cons, List.chain'_singleton, and_true]
       exact ⟨by decide, by decide⟩)
     (by decide)⟩
